import Mathlib

/-
Verification of the SINDy model-discovery engine specified for the
neurosindy repository.

The repository's own code (a notebook) defines two Lorenz right-hand sides
and calls an external SINDy routine on a simulated trajectory; the engine
itself (derivative estimation, polynomial feature library, sequential
thresholded least squares, reporting) is specified but not present in the
sources.  Those components are therefore modelled here from the spec, over
exact rationals: matrices are lists of rows, machine reals become ℚ, and
fallible operations return Option/Except values.
-/

namespace NeuroSINDy

/-- Modelled from the spec: the error taxonomy of §7.  The engine's code is
not in the repository sources; the spec names four error kinds. -/
inductive SINDyError where
  | invalidInput
  | invalidConfig
  | dimensionMismatch
  | numericalFailure
  deriving DecidableEq, Repr

/-- Modelled from the spec: the time information accompanying a trajectory,
either a scalar uniform sample interval or an explicit time vector. -/
inductive TimeSpec where
  | uniform (dt : ℚ)
  | vector (tv : List ℚ)
  deriving DecidableEq, Repr

/-- Modelled from the spec: row `i` of the derivative matrix for a uniform
sample interval `dt`: forward difference at the first sample, backward
difference at the last sample, central difference at interior samples. -/
def fdRowU (x : List (List ℚ)) (dt : ℚ) (i : ℕ) : List ℚ :=
  if i = 0 then
    List.zipWith (fun a b => (b - a) / dt) (x.getD 0 []) (x.getD 1 [])
  else if i = x.length - 1 then
    List.zipWith (fun a b => (b - a) / dt) (x.getD (x.length - 2) []) (x.getD (x.length - 1) [])
  else
    List.zipWith (fun a b => (b - a) / (2 * dt)) (x.getD (i - 1) []) (x.getD (i + 1) [])

/-- Modelled from the spec: the derivative matrix for a uniform sample
interval; one row per trajectory row, so no samples are dropped. -/
def fdUniform (x : List (List ℚ)) (dt : ℚ) : List (List ℚ) :=
  (List.range x.length).map (fdRowU x dt)

/-- Modelled from the spec: row `i` of the derivative matrix for an explicit
time vector `tv`; the same scheme with the matching time differences. -/
def fdRowV (x : List (List ℚ)) (tv : List ℚ) (i : ℕ) : List ℚ :=
  if i = 0 then
    List.zipWith (fun a b => (b - a) / (tv.getD 1 0 - tv.getD 0 0)) (x.getD 0 []) (x.getD 1 [])
  else if i = x.length - 1 then
    List.zipWith (fun a b => (b - a) / (tv.getD (x.length - 1) 0 - tv.getD (x.length - 2) 0))
      (x.getD (x.length - 2) []) (x.getD (x.length - 1) [])
  else
    List.zipWith (fun a b => (b - a) / (tv.getD (i + 1) 0 - tv.getD (i - 1) 0))
      (x.getD (i - 1) []) (x.getD (i + 1) [])

/-- Modelled from the spec: the derivative matrix for an explicit time
vector. -/
def fdVector (x : List (List ℚ)) (tv : List ℚ) : List (List ℚ) :=
  (List.range x.length).map (fdRowV x tv)

/-- Boolean test that a list of rationals is strictly increasing. -/
def strictIncrB : List ℚ → Bool
  | [] => true
  | [_] => true
  | a :: b :: rest => (if a < b then true else false) && strictIncrB (b :: rest)

/-- Modelled from the spec: the Derivative Estimator.  It validates its
input (at least two samples; a supplied time vector must be strictly
increasing and match the trajectory length) and fails with
`InvalidInputError` otherwise. -/
def differentiate (x : List (List ℚ)) (ts : TimeSpec) : Except SINDyError (List (List ℚ)) :=
  if x.length < 2 then Except.error SINDyError.invalidInput
  else
    match ts with
    | TimeSpec.uniform dt => Except.ok (fdUniform x dt)
    | TimeSpec.vector tv =>
      if tv.length = x.length ∧ strictIncrB tv = true then Except.ok (fdVector x tv)
      else Except.error SINDyError.invalidInput

/-- The spec's well-formedness condition on the Derivative Estimator's
input: at least two samples, and a supplied time vector strictly increasing
and of matching length. -/
def wellFormedInput (x : List (List ℚ)) : TimeSpec → Prop
  | TimeSpec.uniform _ => 2 ≤ x.length
  | TimeSpec.vector tv => 2 ≤ x.length ∧ tv.length = x.length ∧ List.Chain' (· < ·) tv

/-- Modelled from the spec: monomials of total degree `t` in variables
`lo, …, n-1`, represented as nondecreasing lists of variable indices and
generated in lexicographic order of variable index. -/
def combosFrom (n : ℕ) : ℕ → ℕ → List (List ℕ)
  | _, 0 => [[]]
  | lo, t + 1 =>
    (List.range' lo (n - lo)).flatMap (fun i => (combosFrom n i t).map (fun m => i :: m))

/-- A monomial (as an index list) involving at most one distinct variable,
i.e. a pure power; these are the terms kept when interactions are off. -/
def isPower : List ℕ → Bool
  | [] => true
  | i :: rest => rest.all (fun j => j == i)

/-- Modelled from the spec: the polynomial Feature Library for state
dimension `n`: every monomial of total degree 0 through `d`, in order of
increasing degree and then lexicographic in variable index, with the
constant term kept only when `bias` is set and cross terms kept only when
`inter` is set. -/
def polyFeatures (n d : ℕ) (bias inter : Bool) : List (List ℕ) :=
  ((List.range (d + 1)).flatMap (fun t => combosFrom n 0 t)).filter
    (fun m => (bias || !m.isEmpty) && (inter || isPower m))

/-- Value of the monomial `m` (a list of variable indices) at a state row. -/
def evalMono (row : List ℚ) : List ℕ → ℚ
  | [] => 1
  | i :: rest => row.getD i 0 * evalMono row rest

/-- Human-readable name of a library monomial. -/
def featureName (m : List ℕ) : String :=
  if m.isEmpty then "1"
  else String.intercalate " " (m.map (fun i => "x" ++ toString i))

/-- Dot product of two rational vectors. -/
def dotProd (a b : List ℚ) : ℚ := (List.zipWith (· * ·) a b).sum

/-- Transpose of a rectangular rational matrix given as a list of rows. -/
def matTranspose (m : List (List ℚ)) : List (List ℚ) :=
  (List.range (m.headD []).length).map (fun j => m.map (fun row => row.getD j 0))

/-- Matrix product, rows of `a` against columns of `b`. -/
def matMul (a b : List (List ℚ)) : List (List ℚ) :=
  a.map (fun row => (matTranspose b).map (fun col => dotProd row col))

/-- Matrix-vector product. -/
def matVec (a : List (List ℚ)) (v : List ℚ) : List ℚ :=
  a.map (fun row => dotProd row v)

/-- Add `alpha` to the diagonal entry of the row at position `i`. -/
def addTo : ℕ → ℚ → List ℚ → List ℚ
  | _, _, [] => []
  | 0, a, v :: vs => (v + a) :: vs
  | n + 1, a, v :: vs => v :: addTo n a vs

/-- `m + alpha·I` for a square rational matrix `m`. -/
def addDiagAux (alpha : ℚ) : ℕ → List (List ℚ) → List (List ℚ)
  | _, [] => []
  | i, row :: rest => addTo i alpha row :: addDiagAux alpha (i + 1) rest

/-- Ridge shift of a Gram matrix. -/
def addDiag (alpha : ℚ) (m : List (List ℚ)) : List (List ℚ) := addDiagAux alpha 0 m

/-- First row with a nonzero leading entry, together with the remaining
rows; `none` when every leading entry is zero (a singular system). -/
def pickPivot : List (List ℚ) → Option (List ℚ × List (List ℚ))
  | [] => none
  | r :: rs =>
    if r.headD 0 ≠ 0 then some (r, rs)
    else (pickPivot rs).map (fun p => (p.1, r :: p.2))

/-- Eliminate the leading column of `r` against the pivot row `p` and drop
that column. -/
def elimStep (p r : List ℚ) : List ℚ :=
  (List.zipWith (fun a b => a - r.headD 0 / p.headD 0 * b) r p).drop 1

/-- Forward elimination of `k` augmented rows into triangular form;
`none` when a pivot cannot be found. -/
def triangularize : ℕ → List (List ℚ) → Option (List (List ℚ))
  | 0, _ => some []
  | k + 1, rows =>
    match pickPivot rows with
    | none => none
    | some pr => (triangularize k (pr.2.map (elimStep pr.1))).map (fun tr => pr.1 :: tr)

/-- Back substitution through a triangular list of augmented rows. -/
def backSubstitute : List (List ℚ) → List ℚ
  | [] => []
  | p :: tr =>
    let xs := backSubstitute tr
    let rest := p.drop 1
    ((rest.getLastD 0 - dotProd rest.dropLast xs) / p.headD 0) :: xs

/-- Exact solution of the square linear system `a · c = b` by Gaussian
elimination over ℚ; `none` when the system is singular. -/
def gaussSolve (a : List (List ℚ)) (b : List ℚ) : Option (List ℚ) :=
  (triangularize a.length (List.zipWith (fun row v => row ++ [v]) a b)).map backSubstitute

/-- Columns of `row` selected by the Boolean mask. -/
def selectMask : List Bool → List ℚ → List ℚ
  | [], _ => []
  | _, [] => []
  | a :: ms, v :: vs => if a then v :: selectMask ms vs else selectMask ms vs

/-- Spread a compressed coefficient vector back over the full feature list,
placing zeros at inactive positions. -/
def scatter : List Bool → List ℚ → List ℚ
  | [], _ => []
  | true :: ms, [] => 0 :: scatter ms []
  | true :: ms, v :: vs => v :: scatter ms vs
  | false :: ms, vs => 0 :: scatter ms vs

/-- Modelled from the spec: the (ridge) least-squares solve restricted to
the active feature set.  The repository delegates this to an external
optimizer whose code is not under the sources; the spec requires the
minimizer of `‖D - F·C‖² + alpha·‖C‖²`.  Over exact rationals that
minimizer is the solution of the normal equations
`(Fᵀ·F + alpha·I)·c = Fᵀ·d`, computed here by exact Gaussian elimination
and coinciding with a QR/SVD least-squares solve whenever the restricted
Gram matrix is invertible; a singular, unregularized system is reported as
a failure, per the spec's `NumericalFailureError`.  An empty active set
yields the all-zero coefficient vector, per spec step 5. -/
def solveActive (F : List (List ℚ)) (d : List ℚ) (alpha : ℚ) (active : List Bool) :
    Option (List ℚ) :=
  if active.all (fun b => !b) then some (List.replicate active.length 0)
  else
    let Fa := F.map (selectMask active)
    let Ft := matTranspose Fa
    (gaussSolve (addDiag alpha (matMul Ft Fa)) (matVec Ft d)).map (scatter active)

/-- Modelled from the spec: one hard-thresholding pass.  Coefficients whose
absolute value is below `t` are zeroed and their features leave the active
set; the surviving coefficients are kept unchanged. -/
def stepThreshold (t : ℚ) (active : List Bool) (c : List ℚ) : List Bool × List ℚ :=
  let act2 := List.zipWith (fun a v => if t ≤ |v| then a else false) active c
  (act2, List.zipWith (fun a v => cond a v 0) act2 c)

/-- Modelled from the spec: sequential thresholded least squares for one
output column.  Each round solves the restricted least-squares problem and
thresholds; iteration stops when the active set is unchanged or the fuel
(max_iterations − 1 remaining rounds) runs out.  A failed solve makes the
whole column unavailable. -/
def stlsqColumn (F : List (List ℚ)) (d : List ℚ) (alpha t : ℚ) :
    ℕ → List Bool → Option (List ℚ)
  | 0, active => (solveActive F d alpha active).map (fun c => (stepThreshold t active c).2)
  | fuel + 1, active =>
    match solveActive F d alpha active with
    | none => none
    | some c =>
      let p := stepThreshold t active c
      if p.1 = active then some p.2 else stlsqColumn F d alpha t fuel p.1

/-- Modelled from the spec: the Sparse Regressor.  Checks that the feature
and derivative matrices have equally many rows, then runs sequential
thresholded least squares independently per output state column, starting
from the all-active feature set; each column is either a coefficient
vector or unavailable. -/
def sparseRegression (F D : List (List ℚ)) (threshold alpha : ℚ) (maxIter : ℕ) :
    Except SINDyError (List (Option (List ℚ))) :=
  if F.length ≠ D.length then Except.error SINDyError.dimensionMismatch
  else
    Except.ok ((List.range (D.headD []).length).map (fun k =>
      stlsqColumn F (D.map (fun row => row.getD k 0)) alpha threshold (maxIter - 1)
        (List.replicate (F.headD []).length true)))

/-- Modelled from the spec: the full fitting pipeline.  Estimate
derivatives, expand the trajectory through the polynomial feature library,
and run the sparse regressor; the result is one coefficient column per
state. -/
def sindyFit (x : List (List ℚ)) (ts : TimeSpec) (degree : ℕ) (bias inter : Bool)
    (threshold alpha : ℚ) (maxIter : ℕ) : Except SINDyError (List (Option (List ℚ))) :=
  match differentiate x ts with
  | Except.error e => Except.error e
  | Except.ok D =>
    let lib := polyFeatures (x.headD []).length degree bias inter
    sparseRegression (x.map (fun row => lib.map (fun m => evalMono row m))) D
      threshold alpha maxIter

/-- Number of nonzero entries of a coefficient column. -/
def countNZlist : List ℚ → ℕ
  | [] => 0
  | v :: rest => (if v = 0 then 0 else 1) + countNZlist rest

/-- Number of nonzero entries of a possibly unavailable column. -/
def countNZcol : Option (List ℚ) → ℕ
  | none => 0
  | some c => countNZlist c

/-- Number of nonzero entries of a fitting result. -/
def countNonzeros : Except SINDyError (List (Option (List ℚ))) → ℕ
  | Except.error _ => 0
  | Except.ok cols => (cols.map countNZcol).sum

/-- Modelled from the spec: the Fitted Model value: one coefficient column
per state, the library's feature names, and the sample interval. -/
structure FittedModel where
  coefficients : List (List ℚ)
  featureNames : List String
  dt : ℚ

/-- Three-digit zero padding for the fractional part of a rendered
coefficient. -/
def pad3 (k : ℕ) : String :=
  if k < 10 then "00" ++ toString k
  else if k < 100 then "0" ++ toString k
  else toString k

/-- Modelled from the spec: a coefficient rendered at a fixed numeric
precision of three decimal places. -/
def renderFixed (c : ℚ) : String :=
  let m : ℤ := round (c * 1000)
  (if m < 0 then "-" else "") ++ toString (m.natAbs / 1000) ++ "." ++ pad3 (m.natAbs % 1000)

/-- The prime mark used in rendered equation heads. -/
def primeMark : String := String.singleton (Char.ofNat 39)

/-- Modelled from the spec: the terms of one rendered equation: the
(coefficient, feature-name) pairs whose coefficient is nonzero, in library
order. -/
def equationTerms (col : List ℚ) (names : List String) : List (ℚ × String) :=
  (col.zip names).filter (fun p => decide (p.1 ≠ 0))

/-- One rendered term, coefficient at fixed precision then feature name. -/
def renderTerm (p : ℚ × String) : String := renderFixed p.1 ++ " " ++ p.2

/-- Modelled from the spec: the rendered equation for state `k`. -/
def equationString (k : ℕ) (col : List ℚ) (names : List String) : String :=
  "x" ++ toString k ++ primeMark ++ " = " ++
    String.intercalate " + " ((equationTerms col names).map renderTerm)

/-- Modelled from the spec: `describe()` — one rendered equation per
state. -/
def describe (mdl : FittedModel) : List String :=
  (List.range mdl.coefficients.length).map
    (fun k => equationString k (mdl.coefficients.getD k []) mdl.featureNames)

/-- The notebook's `lorenz_deriv` (inside `solve_lorenz`): state passed as
a triple, parameters received as (default) arguments. -/
def lorenz_deriv (x_y_z : ℚ × ℚ × ℚ) (t0 sigma beta rho : ℚ) : List ℚ :=
  [sigma * (x_y_z.2.1 - x_y_z.1),
   x_y_z.1 * (rho - x_y_z.2.2) - x_y_z.2.1,
   x_y_z.1 * x_y_z.2.1 - beta * x_y_z.2.2]

/-- The notebook's `lorenz`: the state is a list and the parameters
`sigma`, `beta`, `rho` are read from the module globals at call time; the
global environment is made explicit here as the leading arguments. -/
def lorenz (sigma beta rho : ℚ) (z : List ℚ) (t : ℚ) : List ℚ :=
  [sigma * (z.getD 1 0 - z.getD 0 0),
   z.getD 0 0 * (rho - z.getD 2 0) - z.getD 1 0,
   z.getD 0 0 * z.getD 1 0 - beta * z.getD 2 0]

/-- The notebook's training initial state `x0_train = [-8, 8, 27]`. -/
def x0_train : List ℚ := [-8, 8, 27]

/-- The canonical order on library monomials: smaller total degree first,
then lexicographic in variable index. -/
def monoLT (a b : List ℕ) : Prop :=
  a.length < b.length ∨ (a.length = b.length ∧ List.Lex (· < ·) a b)

/-- The trajectory witnessing non-monotonicity of sparsity in the
threshold: a single-state trajectory with samples −6, 0, −5, −5/2. -/
def trajC4 : List (List ℚ) := [[-6], [0], [-5], [-5/2]]

/-- The feature matrix of `trajC4` under the degree-2 polynomial library
with bias (columns 1, x, x²). -/
def Fc4 : List (List ℚ) := [[1, -6, 36], [1, 0, 0], [1, -5, 25], [1, -5/2, 25/4]]

/-- The finite-difference derivative column of `trajC4` at dt = 1. -/
def dc4 : List ℚ := [6, 1/2, -5/4, 5/2]

/-! ## Helper lemmas -/

theorem strictIncrB_iff : ∀ l : List ℚ, strictIncrB l = true ↔ List.Chain' (· < ·) l
  | [] => by simp [strictIncrB]
  | [a] => by simp [strictIncrB]
  | a :: b :: rest => by
    rw [List.chain'_cons, ← strictIncrB_iff (b :: rest)]
    by_cases hab : a < b <;> simp [strictIncrB, hab]

theorem getD_row_length {x : List (List ℚ)} {nd : ℕ} (hrect : ∀ row ∈ x, row.length = nd)
    {j : ℕ} (hj : j < x.length) : (x.getD j []).length = nd := by
  rw [List.getD_eq_getElem x [] hj]
  exact hrect _ (List.getElem_mem hj)

theorem fdUniform_getD {x : List (List ℚ)} {dt : ℚ} {i : ℕ} (h : i < x.length) :
    (fdUniform x dt).getD i [] = fdRowU x dt i := by
  simp [fdUniform, List.getD, List.getElem?_map, List.getElem?_range h]

theorem fdVector_getD {x : List (List ℚ)} {tv : List ℚ} {i : ℕ} (h : i < x.length) :
    (fdVector x tv).getD i [] = fdRowV x tv i := by
  simp [fdVector, List.getD, List.getElem?_map, List.getElem?_range h]

/-! ## Claim theorems -/

/-- C9: the two Lorenz right-hand sides in the notebook agree pointwise:
for every state (x, y, z), time arguments and parameter triple,
`lorenz_deriv` and `lorenz` (evaluated with the globals set to that
triple) both return `[σ·(y−x), x·(ρ−z)−y, x·y−β·z]`. -/
theorem lorenz_rhs_agree (x y z t0 t sigma beta rho : ℚ) :
    lorenz_deriv (x, y, z) t0 sigma beta rho = lorenz sigma beta rho [x, y, z] t ∧
    lorenz_deriv (x, y, z) t0 sigma beta rho =
      [sigma * (y - x), x * (rho - z) - y, x * y - beta * z] := by
  constructor <;> rfl

/-- C3: fitting is deterministic: the fit of equal trajectories under equal
configurations yields identical coefficient matrices.  In this embedding
the pipeline is a pure function of its inputs, with no hidden state. -/
theorem sindy_fit_deterministic (x1 x2 : List (List ℚ)) (ts1 ts2 : TimeSpec)
    (d1 d2 : ℕ) (b1 b2 i1 i2 : Bool) (t1 t2 a1 a2 : ℚ) (m1 m2 : ℕ)
    (hx : x1 = x2) (hts : ts1 = ts2) (hd : d1 = d2) (hb : b1 = b2) (hi : i1 = i2)
    (ht : t1 = t2) (ha : a1 = a2) (hm : m1 = m2) :
    sindyFit x1 ts1 d1 b1 i1 t1 a1 m1 = sindyFit x2 ts2 d2 b2 i2 t2 a2 m2 := by
  subst hx hts hd hb hi ht ha hm
  rfl

/-- Witness for C3 at a concrete input. -/
theorem sindy_fit_deterministic_witness :
    sindyFit [[1], [2]] (TimeSpec.uniform 1) 2 true true (1/10) 0 10 =
      sindyFit [[1], [2]] (TimeSpec.uniform 1) 2 true true (1/10) 0 10 :=
  sindy_fit_deterministic [[1], [2]] [[1], [2]] (TimeSpec.uniform 1) (TimeSpec.uniform 1)
    2 2 true true true true (1/10) (1/10) 0 0 10 10 rfl rfl rfl rfl rfl rfl rfl rfl

/-- C6: the Derivative Estimator fails with `InvalidInputError` exactly
when its input is malformed: fewer than 2 trajectory rows, or a supplied
time vector that is not strictly increasing or mismatched in length; on
every well-formed input (in particular any 2-sample trajectory) it
succeeds. -/
theorem differentiate_error_iff (x : List (List ℚ)) (ts : TimeSpec) :
    (differentiate x ts = Except.error SINDyError.invalidInput ↔ ¬ wellFormedInput x ts) ∧
    ((∃ D, differentiate x ts = Except.ok D) ↔ wellFormedInput x ts) := by
  cases ts with
  | uniform dt =>
    by_cases h : x.length < 2 <;>
      (simp [differentiate, wellFormedInput, h]; try omega)
  | vector tv =>
    have hwf : wellFormedInput x (TimeSpec.vector tv) ↔
        (2 ≤ x.length ∧ tv.length = x.length ∧ strictIncrB tv = true) := by
      rw [strictIncrB_iff tv]
      exact Iff.rfl
    by_cases h : x.length < 2
    · have hne : ¬ wellFormedInput x (TimeSpec.vector tv) := by
        rw [hwf]
        intro hw
        exact absurd hw.1 (by omega)
      have hdiff : differentiate x (TimeSpec.vector tv) = Except.error SINDyError.invalidInput := by
        simp [differentiate, h]
      refine ⟨by simp [hdiff, hne], ?_⟩
      rw [hdiff]
      constructor
      · rintro ⟨D, hD⟩
        simp at hD
      · intro hw
        exact absurd hw hne
    · by_cases hv : tv.length = x.length ∧ strictIncrB tv = true
      · have hwf2 : wellFormedInput x (TimeSpec.vector tv) := by
          rw [hwf]
          exact ⟨by omega, hv⟩
        have hdiff : differentiate x (TimeSpec.vector tv) = Except.ok (fdVector x tv) := by
          simp [differentiate, h, hv]
        refine ⟨?_, fun _ => hwf2, fun _ => ⟨_, hdiff⟩⟩
        rw [hdiff]
        constructor
        · intro he
          simp at he
        · intro hn
          exact absurd hwf2 hn
      · have hne : ¬ wellFormedInput x (TimeSpec.vector tv) := by
          rw [hwf]
          rintro ⟨-, h2, h3⟩
          exact hv ⟨h2, h3⟩
        have hdiff : differentiate x (TimeSpec.vector tv) = Except.error SINDyError.invalidInput := by
          simp [differentiate, h, hv]
        refine ⟨by simp [hdiff, hne], ?_⟩
        rw [hdiff]
        constructor
        · rintro ⟨D, hD⟩
          simp at hD
        · intro hw
          exact absurd hw hne

/-- C5: on every trajectory with at least two samples the Derivative
Estimator returns a matrix of exactly the trajectory's shape (for either
kind of time information), with a forward difference at the first row, a
backward difference at the last row and central differences at every
interior row — no rows are dropped. -/
theorem derivative_shape_and_scheme (x : List (List ℚ)) (dt : ℚ) (tv : List ℚ) (nd : ℕ)
    (h2 : 2 ≤ x.length) (hrect : ∀ row ∈ x, row.length = nd) :
    (fdUniform x dt).length = x.length ∧
    (∀ row ∈ fdUniform x dt, row.length = nd) ∧
    (fdVector x tv).length = x.length ∧
    (∀ row ∈ fdVector x tv, row.length = nd) ∧
    (fdUniform x dt).getD 0 [] =
      List.zipWith (fun a b => (b - a) / dt) (x.getD 0 []) (x.getD 1 []) ∧
    (fdUniform x dt).getD (x.length - 1) [] =
      List.zipWith (fun a b => (b - a) / dt)
        (x.getD (x.length - 2) []) (x.getD (x.length - 1) []) ∧
    (∀ i, 0 < i → i + 1 < x.length →
      (fdUniform x dt).getD i [] =
        List.zipWith (fun a b => (b - a) / (2 * dt)) (x.getD (i - 1) []) (x.getD (i + 1) [])) := by
  have hlen : ∀ j, j < x.length → (x.getD j []).length = nd := fun j hj =>
    getD_row_length hrect hj
  have hrowU : ∀ i, i < x.length → (fdRowU x dt i).length = nd := by
    intro i hi
    unfold fdRowU
    split_ifs with h0 hlast
    · rw [List.length_zipWith, hlen 0 (by omega), hlen 1 (by omega)]
      omega
    · rw [List.length_zipWith, hlen (x.length - 2) (by omega), hlen (x.length - 1) (by omega)]
      omega
    · rw [List.length_zipWith, hlen (i - 1) (by omega), hlen (i + 1) (by omega)]
      omega
  have hrowV : ∀ i, i < x.length → (fdRowV x tv i).length = nd := by
    intro i hi
    unfold fdRowV
    split_ifs with h0 hlast
    · rw [List.length_zipWith, hlen 0 (by omega), hlen 1 (by omega)]
      omega
    · rw [List.length_zipWith, hlen (x.length - 2) (by omega), hlen (x.length - 1) (by omega)]
      omega
    · rw [List.length_zipWith, hlen (i - 1) (by omega), hlen (i + 1) (by omega)]
      omega
  refine ⟨by simp [fdUniform], ?_, by simp [fdVector], ?_, ?_, ?_, ?_⟩
  · intro row hrow
    simp only [fdUniform, List.mem_map, List.mem_range] at hrow
    obtain ⟨i, hi, rfl⟩ := hrow
    exact hrowU i hi
  · intro row hrow
    simp only [fdVector, List.mem_map, List.mem_range] at hrow
    obtain ⟨i, hi, rfl⟩ := hrow
    exact hrowV i hi
  · rw [fdUniform_getD (by omega : 0 < x.length)]
    simp [fdRowU]
  · rw [fdUniform_getD (by omega : x.length - 1 < x.length)]
    rw [fdRowU, if_neg (by omega), if_pos rfl]
  · intro i h0 hi1
    rw [fdUniform_getD (by omega : i < x.length)]
    rw [fdRowU, if_neg (by omega), if_neg (by omega)]

/-- Witness for C5 at a concrete 3-sample, 2-state trajectory. -/
theorem derivative_shape_and_scheme_witness :
    (fdUniform [[1, 2], [3, 4], [5, 6]] 1).length = ([[1, 2], [3, 4], [5, 6]] : List (List ℚ)).length :=
  (derivative_shape_and_scheme [[1, 2], [3, 4], [5, 6]] 1 [0, 1, 2] 2
    (by norm_num) (by intro row hrow; fin_cases hrow <;> rfl)).1

theorem stepThreshold_mem (t : ℚ) : ∀ (a : List Bool) (c : List ℚ) (v : ℚ),
    v ∈ (stepThreshold t a c).2 → v = 0 ∨ t ≤ |v|
  | [], c, v => by simp [stepThreshold]
  | a0 :: as, [], v => by simp [stepThreshold]
  | a0 :: as, v0 :: vs, v => by
    simp only [stepThreshold, List.zipWith_cons_cons, List.mem_cons]
    rintro (rfl | hv)
    · by_cases ht : t ≤ |v0|
      · cases a0 <;> simp [ht]
      · simp [ht]
    · exact stepThreshold_mem t as vs v hv

theorem stlsqColumn_mem (F : List (List ℚ)) (d : List ℚ) (alpha t : ℚ) :
    ∀ (fuel : ℕ) (active : List Bool) (c : List ℚ),
      stlsqColumn F d alpha t fuel active = some c → ∀ v ∈ c, v = 0 ∨ t ≤ |v|
  | 0, active, c => by
    simp only [stlsqColumn, Option.map_eq_some']
    rintro ⟨c0, hc0, rfl⟩ v hv
    exact stepThreshold_mem t active c0 v hv
  | fuel + 1, active, c => by
    simp only [stlsqColumn]
    cases hs : solveActive F d alpha active with
    | none => simp
    | some c0 =>
      simp only []
      split_ifs with hconv
      · rintro hc v hv
        have hc' : (stepThreshold t active c0).2 = c := by
          simpa using hc
        exact stepThreshold_mem t active c0 v (hc' ▸ hv)
      · exact fun hc => stlsqColumn_mem F d alpha t fuel _ c hc

/-- C2: after fitting, every entry of every returned coefficient column is
either exactly zero or at least the sparsity threshold in absolute value —
sparsity is a terminal property, whatever feature matrix, derivative
matrix and configuration were supplied. -/
theorem sparse_regression_threshold_invariant (F D : List (List ℚ)) (t alpha : ℚ)
    (mi : ℕ) (cols : List (Option (List ℚ)))
    (hok : sparseRegression F D t alpha mi = Except.ok cols) :
    ∀ oc ∈ cols, ∀ c, oc = some c → ∀ v ∈ c, v = 0 ∨ t ≤ |v| := by
  unfold sparseRegression at hok
  by_cases hlen : F.length ≠ D.length
  · rw [if_pos hlen] at hok
    exact absurd hok (by simp)
  · rw [if_neg hlen, Except.ok.injEq] at hok
    subst hok
    rintro oc hoc c rfl v hv
    simp only [List.mem_map] at hoc
    obtain ⟨k, -, hk⟩ := hoc
    exact stlsqColumn_mem F _ alpha t _ _ c hk v hv

/-- Witness for C2: a concrete fit whose single returned coefficient meets
the threshold. -/
theorem sparse_regression_threshold_invariant_witness :
    (1 : ℚ) = 0 ∨ (1/2 : ℚ) ≤ |(1 : ℚ)| :=
  sparse_regression_threshold_invariant [[1], [1]] [[1], [1]] (1/2) 0 1 [some [1]]
    (by
      have hs : solveActive [[1], [1]] [1, 1] 0 [true] = some [1] := by
        norm_num only [solveActive]
        norm_num [selectMask, scatter, matTranspose, matMul, matVec, dotProd, addDiag,
          addDiagAux, addTo, gaussSolve, triangularize, pickPivot, elimStep,
          backSubstitute, List.range_succ]
      norm_num only [sparseRegression]
      norm_num [stlsqColumn, hs, stepThreshold, Bool.cond_decide, List.range_succ,
        List.replicate])
    (some [1]) (by simp) [1] rfl 1 (by simp)

theorem countNZ_stepThreshold_mono {t1 t2 : ℚ} (h : t1 ≤ t2) :
    ∀ (a : List Bool) (c : List ℚ),
      countNZlist (stepThreshold t2 a c).2 ≤ countNZlist (stepThreshold t1 a c).2
  | [], c => by simp [stepThreshold, countNZlist]
  | a0 :: as, [] => by simp [stepThreshold, countNZlist]
  | a0 :: as, v0 :: vs => by
    have ih := countNZ_stepThreshold_mono h as vs
    simp only [stepThreshold, List.zipWith_cons_cons, countNZlist]
    refine Nat.add_le_add ?_ ih
    by_cases h2 : t2 ≤ |v0|
    · have h1 : t1 ≤ |v0| := le_trans h h2
      simp [h2, h1]
    · simp only [if_neg h2, Bool.cond_false]
      simp

theorem countNZcol_stlsq_single_mono (F : List (List ℚ)) (d : List ℚ) (alpha : ℚ)
    {t1 t2 : ℚ} (h : t1 ≤ t2) (active : List Bool) :
    countNZcol (stlsqColumn F d alpha t2 0 active) ≤
      countNZcol (stlsqColumn F d alpha t1 0 active) := by
  simp only [stlsqColumn]
  cases hs : solveActive F d alpha active with
  | none => simp [countNZcol]
  | some c => simpa [countNZcol] using countNZ_stepThreshold_mono h active c

theorem sparseRegression_single_pass_mono (F D : List (List ℚ)) {t1 t2 : ℚ}
    (h : t1 ≤ t2) (alpha : ℚ) :
    countNonzeros (sparseRegression F D t2 alpha 1) ≤
      countNonzeros (sparseRegression F D t1 alpha 1) := by
  unfold sparseRegression
  by_cases hlen : F.length ≠ D.length
  · simp only [if_pos hlen]
    exact le_refl _
  · simp only [if_neg hlen, countNonzeros, List.map_map]
    apply List.sum_le_sum
    intro k hk
    simpa [Nat.sub_self] using
      countNZcol_stlsq_single_mono F (D.map (fun row => row.getD k 0)) alpha h _

/-- C4, amended: with `max_iterations = 1` (a single solve-and-threshold
pass) raising the threshold never increases the number of nonzero
coefficients; for the full iterated loop the claimed monotonicity fails
(see the counterexample). -/
theorem sindy_fit_threshold_monotone_single_pass (x : List (List ℚ)) (ts : TimeSpec)
    (deg : ℕ) (bias inter : Bool) (t1 t2 alpha : ℚ) (h : t1 ≤ t2) :
    countNonzeros (sindyFit x ts deg bias inter t2 alpha 1) ≤
      countNonzeros (sindyFit x ts deg bias inter t1 alpha 1) := by
  unfold sindyFit
  cases hD : differentiate x ts with
  | error e => simp [countNonzeros]
  | ok D =>
    exact sparseRegression_single_pass_mono _ D h alpha

/-- Witness for the amended C4 at a concrete input. -/
theorem sindy_fit_threshold_monotone_single_pass_witness :
    countNonzeros (sindyFit [[1], [2]] (TimeSpec.uniform 1) 1 true true 1 0 1) ≤
      countNonzeros (sindyFit [[1], [2]] (TimeSpec.uniform 1) 1 true true 0 0 1) :=
  sindy_fit_threshold_monotone_single_pass [[1], [2]] (TimeSpec.uniform 1) 1 true true
    0 1 0 (by norm_num)

theorem stlsqColumn_step (F : List (List ℚ)) (d : List ℚ) (alpha t : ℚ) (fuel : ℕ)
    (active : List Bool) (c : List ℚ) (hs : solveActive F d alpha active = some c) :
    stlsqColumn F d alpha t (fuel + 1) active =
      if (stepThreshold t active c).1 = active then some (stepThreshold t active c).2
      else stlsqColumn F d alpha t fuel (stepThreshold t active c).1 := by
  simp only [stlsqColumn]
  rw [hs]

theorem solveActive_c4_all : solveActive Fc4 dc4 0 [true, true, true] =
    some [1660/1507, 23589/30140, 3117/15070] := by
  norm_num only [solveActive]
  norm_num [Fc4, dc4, selectMask, scatter, matTranspose, matMul, matVec, dotProd,
    addDiag, addDiagAux, addTo, gaussSolve, triangularize, pickPivot, elimStep,
    backSubstitute, List.range_succ]

theorem solveActive_c4_first : solveActive Fc4 dc4 0 [true, false, false] =
    some [31/16, 0, 0] := by
  norm_num only [solveActive]
  norm_num [Fc4, dc4, selectMask, scatter, matTranspose, matMul, matVec, dotProd,
    addDiag, addDiagAux, addTo, gaussSolve, triangularize, pickPivot, elimStep,
    backSubstitute, List.range_succ]

theorem solveActive_c4_firstTwo : solveActive Fc4 dc4 0 [true, true, false] =
    some [563/1388, -315/694, 0] := by
  norm_num only [solveActive]
  norm_num [Fc4, dc4, selectMask, scatter, matTranspose, matMul, matVec, dotProd,
    addDiag, addDiagAux, addTo, gaussSolve, triangularize, pickPivot, elimStep,
    backSubstitute, List.range_succ]

theorem solveActive_c4_none : solveActive Fc4 dc4 0 [false, false, false] =
    some [0, 0, 0] := by
  norm_num [solveActive, List.replicate]

theorem stlsq_c4_at_one : stlsqColumn Fc4 dc4 0 1 9 [true, true, true] =
    some [31/16, 0, 0] := by
  rw [show (9 : ℕ) = 8 + 1 from rfl, stlsqColumn_step Fc4 dc4 0 1 8 _ _ solveActive_c4_all]
  rw [show stepThreshold 1 [true, true, true] [1660/1507, 23589/30140, 3117/15070] =
      ([true, false, false], [1660/1507, 0, 0]) from by
    norm_num [stepThreshold, Bool.cond_decide, abs_of_pos, abs_of_nonpos]]
  rw [if_neg (by decide)]
  rw [show (8 : ℕ) = 7 + 1 from rfl, stlsqColumn_step Fc4 dc4 0 1 7 _ _ solveActive_c4_first]
  rw [show stepThreshold 1 [true, false, false] [31/16, 0, 0] =
      ([true, false, false], [31/16, 0, 0]) from by
    norm_num [stepThreshold, Bool.cond_decide, abs_of_pos, abs_of_nonpos]]
  rw [if_pos rfl]

theorem stlsq_c4_at_half : stlsqColumn Fc4 dc4 0 (1/2) 9 [true, true, true] =
    some [0, 0, 0] := by
  rw [show (9 : ℕ) = 8 + 1 from rfl, stlsqColumn_step Fc4 dc4 0 (1/2) 8 _ _ solveActive_c4_all]
  rw [show stepThreshold (1/2) [true, true, true] [1660/1507, 23589/30140, 3117/15070] =
      ([true, true, false], [1660/1507, 23589/30140, 0]) from by
    norm_num [stepThreshold, Bool.cond_decide, abs_of_pos, abs_of_nonpos]]
  rw [if_neg (by decide)]
  rw [show (8 : ℕ) = 7 + 1 from rfl,
    stlsqColumn_step Fc4 dc4 0 (1/2) 7 _ _ solveActive_c4_firstTwo]
  rw [show stepThreshold (1/2) [true, true, false] [563/1388, -315/694, 0] =
      ([false, false, false], [0, 0, 0]) from by
    norm_num [stepThreshold, Bool.cond_decide, abs_of_pos, abs_of_nonpos]]
  rw [if_neg (by decide)]
  rw [show (7 : ℕ) = 6 + 1 from rfl, stlsqColumn_step Fc4 dc4 0 (1/2) 6 _ _ solveActive_c4_none]
  rw [show stepThreshold (1/2) [false, false, false] [0, 0, 0] =
      ([false, false, false], [0, 0, 0]) from by
    norm_num [stepThreshold, Bool.cond_decide, abs_of_pos, abs_of_nonpos]]
  rw [if_pos rfl]

theorem sindyFit_trajC4 (t : ℚ) :
    sindyFit trajC4 (TimeSpec.uniform 1) 2 true true t 0 10 =
      Except.ok [stlsqColumn Fc4 dc4 0 t 9 [true, true, true]] := by
  have hD : differentiate trajC4 (TimeSpec.uniform 1) =
      Except.ok [[6], [1/2], [-5/4], [5/2]] := by
    norm_num [trajC4, differentiate, fdUniform, fdRowU, List.range_succ]
  unfold sindyFit
  rw [hD]
  norm_num [sparseRegression, trajC4, polyFeatures, combosFrom, isPower, evalMono,
    Fc4, dc4, List.range_succ, List.range', List.replicate]

/-- C4, counterexample: on the single-state trajectory −6, 0, −5, −5/2 with
dt = 1, degree-2 library with bias and the default-style configuration
(α = 0, max_iterations = 10), the fit with threshold 1/2 ends with zero
nonzero coefficients while the fit with the larger threshold 1 retains one
— the claimed monotonicity of sparsity in the threshold fails. -/
theorem threshold_monotonicity_counterexample :
    ((1 : ℚ)/2 ≤ 1) ∧
    countNonzeros (sindyFit trajC4 (TimeSpec.uniform 1) 2 true true (1/2) 0 10) = 0 ∧
    countNonzeros (sindyFit trajC4 (TimeSpec.uniform 1) 2 true true 1 0 10) = 1 := by
  refine ⟨by norm_num, ?_, ?_⟩
  · rw [sindyFit_trajC4 (1/2), stlsq_c4_at_half]
    norm_num [countNonzeros, countNZcol, countNZlist]
  · rw [sindyFit_trajC4 1, stlsq_c4_at_one]
    norm_num [countNonzeros, countNZcol, countNZlist]

theorem combos_mem (n t : ℕ) : ∀ (lo : ℕ) (m : List ℕ),
    m ∈ combosFrom n lo t ↔
      (m.length = t ∧ List.Sorted (· ≤ ·) m ∧ ∀ i ∈ m, lo ≤ i ∧ i < n) := by
  induction t with
  | zero =>
    intro lo m
    simp only [combosFrom, List.mem_singleton]
    constructor
    · rintro rfl
      simp
    · rintro ⟨hl, -, -⟩
      exact List.length_eq_zero.mp hl
  | succ t ih =>
    intro lo m
    simp only [combosFrom, List.mem_flatMap, List.mem_map, List.mem_range'_1]
    constructor
    · rintro ⟨i, ⟨hlo, hin⟩, m', hm', rfl⟩
      obtain ⟨hlen, hsort, hbound⟩ := (ih i m').mp hm'
      refine ⟨by simp [hlen], ?_, ?_⟩
      · rw [List.sorted_cons]
        exact ⟨fun j hj => (hbound j hj).1, hsort⟩
      · intro j hj
        rcases List.mem_cons.mp hj with rfl | hj'
        · exact ⟨hlo, by omega⟩
        · obtain ⟨hij, hjn⟩ := hbound j hj'
          exact ⟨by omega, hjn⟩
    · rintro ⟨hlen, hsort, hbound⟩
      cases m with
      | nil => simp at hlen
      | cons i m' =>
        rw [List.sorted_cons] at hsort
        obtain ⟨hilo, hin⟩ := hbound i (by simp)
        refine ⟨i, ⟨hilo, by omega⟩, m', ?_, rfl⟩
        refine (ih i m').mpr ⟨by simpa using hlen, hsort.2, ?_⟩
        intro j hj
        exact ⟨hsort.1 j hj, (hbound j (List.mem_cons_of_mem i hj)).2⟩

theorem combos_pairwise_lex (n : ℕ) : ∀ (t lo : ℕ),
    List.Pairwise (List.Lex (· < ·)) (combosFrom n lo t) := by
  intro t
  induction t with
  | zero =>
    intro lo
    simp [combosFrom]
  | succ t ih =>
    intro lo
    rw [combosFrom, List.pairwise_flatMap]
    constructor
    · intro i hi
      rw [List.pairwise_map]
      exact (ih i).imp (fun h => List.Lex.cons h)
    · refine List.Pairwise.imp ?_ (List.pairwise_lt_range' lo (n - lo))
      intro i1 i2 h12 x hx y hy
      simp only [List.mem_map] at hx hy
      obtain ⟨a, -, rfl⟩ := hx
      obtain ⟨b, -, rfl⟩ := hy
      exact List.Lex.rel h12

theorem pairwise_monoLT_of_lex : ∀ {l : List (List ℕ)} {t : ℕ},
    (∀ m ∈ l, m.length = t) → List.Pairwise (List.Lex (· < ·)) l →
      List.Pairwise monoLT l := by
  intro l t hlen h
  induction l with
  | nil => simp
  | cons a l ih =>
    rw [List.pairwise_cons] at h ⊢
    refine ⟨?_, ih (fun m hm => hlen m (List.mem_cons_of_mem a hm)) h.2⟩
    intro b hb
    exact Or.inr ⟨by rw [hlen a (by simp), hlen b (List.mem_cons_of_mem a hb)], h.1 b hb⟩

theorem polyFeatures_pairwise (n d : ℕ) (bias inter : Bool) :
    List.Pairwise monoLT (polyFeatures n d bias inter) := by
  unfold polyFeatures
  apply List.Pairwise.filter
  rw [List.pairwise_flatMap]
  constructor
  · intro t ht
    exact pairwise_monoLT_of_lex
      (fun m hm => ((combos_mem n t 0 m).mp hm).1) (combos_pairwise_lex n t 0)
  · refine List.Pairwise.imp ?_ (List.pairwise_lt_range (d + 1))
    intro t1 t2 h12 x hx y hy
    left
    rw [((combos_mem n t1 0 x).mp hx).1, ((combos_mem n t2 0 y).mp hy).1]
    exact h12

theorem polyFeatures_nodup (n d : ℕ) (bias inter : Bool) :
    (polyFeatures n d bias inter).Nodup := by
  refine List.Pairwise.imp ?_ (polyFeatures_pairwise n d bias inter)
  intro a b hab
  rcases hab with h | ⟨-, hlex⟩
  · intro he
    rw [he] at h
    exact lt_irrefl _ h
  · intro he
    rw [he] at hlex
    exact (asymm hlex) hlex

theorem polyFeatures_mem (n d : ℕ) (bias inter : Bool) (m : List ℕ) :
    m ∈ polyFeatures n d bias inter ↔
      (m.length ≤ d ∧ List.Sorted (· ≤ ·) m ∧ (∀ i ∈ m, i < n) ∧
        (bias = true ∨ m ≠ []) ∧ (inter = true ∨ isPower m = true)) := by
  unfold polyFeatures
  rw [List.mem_filter, List.mem_flatMap]
  simp only [Bool.and_eq_true, Bool.or_eq_true, Bool.not_eq_true', List.isEmpty_eq_false,
    ne_eq, List.mem_range]
  constructor
  · rintro ⟨⟨t, ht, hm⟩, hp⟩
    obtain ⟨hlen, hsort, hbound⟩ := (combos_mem n t 0 m).mp hm
    exact ⟨by omega, hsort, fun i hi => (hbound i hi).2, hp.1, hp.2⟩
  · rintro ⟨hd, hsort, hbound, hb, hi⟩
    refine ⟨⟨m.length, by omega, ?_⟩, hb, hi⟩
    exact (combos_mem n m.length 0 m).mpr
      ⟨rfl, hsort, fun i hi => ⟨Nat.zero_le i, hbound i hi⟩⟩

/-- C7: the polynomial library consists of exactly the monomials of total
degree 0 through `d` in the `n` state variables (the constant term governed
by `bias`, cross terms by `inter`), each appearing once, listed in the
canonical order of increasing total degree and then lexicographic in
variable index.  A monomial is represented by its nondecreasing list of
variable indices, whose length is its total degree; the builder is a pure
function, so positions are identical across repeated runs. -/
theorem poly_library_canonical (n d : ℕ) (bias inter : Bool) (hn : 1 ≤ n) :
    (∀ m, m ∈ polyFeatures n d bias inter ↔
      (m.length ≤ d ∧ List.Sorted (· ≤ ·) m ∧ (∀ i ∈ m, i < n) ∧
        (bias = true ∨ m ≠ []) ∧ (inter = true ∨ isPower m = true))) ∧
    List.Pairwise monoLT (polyFeatures n d bias inter) ∧
    (polyFeatures n d bias inter).Nodup :=
  ⟨fun m => polyFeatures_mem n d bias inter m, polyFeatures_pairwise n d bias inter,
    polyFeatures_nodup n d bias inter⟩

/-- Witness for C7 at state dimension 3, degree 2. -/
theorem poly_library_canonical_witness : (polyFeatures 3 2 true true).Nodup :=
  (poly_library_canonical 3 2 true true (by norm_num)).2.2

/-- C8: `describe()` renders, for each state `k`, the equation
`x_k' = c_1 term_1 + c_2 term_2 + ...` from exactly the (coefficient,
feature-name) pairs with nonzero coefficient, in library order, every
coefficient printed by the fixed-precision renderer; zero-coefficient
terms never appear. -/
theorem describe_renders_nonzero_terms (col : List ℚ) (names : List String) (k : ℕ)
    (mdl : FittedModel) (hk : k < mdl.coefficients.length) :
    (∀ p ∈ equationTerms col names, p.1 ≠ 0) ∧
    (∀ j, j < col.length → j < names.length → col.getD j 0 ≠ 0 →
      (col.getD j 0, names.getD j "") ∈ equationTerms col names) ∧
    equationString k col names =
      "x" ++ toString k ++ primeMark ++ " = " ++
        String.intercalate " + " ((equationTerms col names).map renderTerm) ∧
    (describe mdl).getD k "" =
      equationString k (mdl.coefficients.getD k []) mdl.featureNames := by
  refine ⟨?_, ?_, rfl, ?_⟩
  · intro p hp
    exact of_decide_eq_true (List.mem_filter.mp hp).2
  · intro j hc hn hnz
    have hj : j < (col.zip names).length := by
      rw [List.length_zip]
      omega
    have hget : (col.zip names).get ⟨j, hj⟩ = (col.getD j 0, names.getD j "") := by
      rw [List.get_eq_getElem, List.getElem_zip, List.getD_eq_getElem col 0 hc,
        List.getD_eq_getElem names "" hn]
    refine List.mem_filter.mpr ⟨?_, ?_⟩
    · rw [← hget]
      exact (col.zip names).get_mem _ hj
    · exact decide_eq_true hnz
  · simp [describe, List.getD, List.getElem?_map, List.getElem?_range hk]

/-- Witness for C8: a nonzero coefficient appears among the rendered
terms. -/
theorem describe_renders_nonzero_terms_witness :
    ((1 : ℚ), "x0") ∈ equationTerms [1, 0] ["x0", "x1"] :=
  (describe_renders_nonzero_terms [1, 0] ["x0", "x1"] 0 ⟨[[1, 0]], ["x0", "x1"], 1⟩
    (by norm_num)).2.1 0 (by norm_num) (by norm_num) (by norm_num)

/-- C10: the notebook's `lorenz` reads the module globals `sigma`, `beta`,
`rho` (set from the widget sliders) at call time — embedded here as
explicit leading environment arguments — so two runs whose slider values
differ produce different `lorenz` outputs at the training initial state
(−8, 8, 27), and in particular the output is not determined by the fixed
constants (10, 8/3, 28). -/
theorem lorenz_depends_on_globals (sigma1 beta1 rho1 sigma2 beta2 rho2 t1 t2 : ℚ)
    (hne : (sigma1, beta1, rho1) ≠ (sigma2, beta2, rho2)) :
    lorenz sigma1 beta1 rho1 x0_train t1 ≠ lorenz sigma2 beta2 rho2 x0_train t2 := by
  intro heq
  apply hne
  norm_num [lorenz, x0_train] at heq
  obtain ⟨e1, e2, e3⟩ := heq
  have h1 : sigma1 = sigma2 := by linarith
  have h2 : beta1 = beta2 := by linarith
  have h3 : rho1 = rho2 := by linarith
  rw [h1, h2, h3]

/-- Witness for C10: changing only σ from the notebook defaults changes
the Lorenz right-hand side at the training initial state. -/
theorem lorenz_depends_on_globals_witness :
    lorenz 10 (8/3) 28 x0_train 0 ≠ lorenz 11 (8/3) 28 x0_train 0 :=
  lorenz_depends_on_globals 10 (8/3) 28 11 (8/3) 28 0 0 (by norm_num)

end NeuroSINDy
